import Mathlib

/-!
Verification of the time encoding and decoding (TED) core: a shallow embedding of
`bionet/ted/iaf.py` and `bionet/ted/vtdm.py` (integrate-and-fire encoder,
recoverability checker, dense / fast / population / Vandermonde decoders),
together with theorems settling the specification claims about them.

Modelling conventions:
* Python floats become elements of a linear ordered field `K` (instantiated at
  `ℚ` for concrete evaluation and at `ℝ` when properties of `exp`/`log` are
  needed); complex values become `ℂ`.
* `numpy.inf` resistances are modelled by the dedicated type `Resistance`,
  mirroring the `isinf(R)` branching of the source.
* External library routines that the repository merely calls
  (`numpy.exp`, `numpy.log`, `scipy.signal.resample`, `scipy.special.sici`,
  the complex exponential integral `ei`, `numpy.linalg.pinv`, and the BPA
  solver whose module is not part of the sources) are taken as function
  parameters of the embedded definitions.
* `raise ValueError(...)` becomes `Except.error` with a dedicated error tag
  per message, following the specification's error names.
-/

/-- Error kinds of the TED core, one per distinct `ValueError` site,
named as in the specification (§7). -/
inductive TedError where
  | biasTooLow
  | nonRealRate
  | reconstructionConditionViolated
  | resolutionError
  | unrecognizedQuadratureMethod
  | insufficientSpikes
  | noSpikeData
  deriving DecidableEq, Repr

/-- A neuron resistance: either `numpy.inf` (ideal integrator) or a finite
value (leaky integrator).  Mirrors the `isinf(R)` tests of the source. -/
inductive Resistance (K : Type) where
  | inf : Resistance K
  | fin : K → Resistance K
  deriving DecidableEq

/-- Counterpart of `numpy.isinf` applied to a resistance. -/
def Resistance.isInf {K : Type} : Resistance K → Bool
  | .inf => true
  | .fin _ => false

/-- Running cumulative sum starting from accumulator `a`
(helper for `cumsum`). -/
def cumsumFrom {K : Type} [Add K] (a : K) : List K → List K
  | [] => []
  | x :: xs => (a + x) :: cumsumFrom (a + x) xs

/-- Embedding of `numpy.cumsum` on a one-dimensional array. -/
def cumsum {K : Type} [Add K] [Zero K] (l : List K) : List K := cumsumFrom 0 l

/-- Midpoints between consecutive entries: `(ts[0:-1]+ts[1:])/2`
(the spike midpoints `tsh` of the decoders). -/
def midpoints {K : Type} [Add K] [Div K] [OfNat K 2] (ts : List K) : List K :=
  (ts.zip ts.tail).map (fun p => (p.1 + p.2) / 2)

/-- Embedding of `max(abs(u))` (numpy reduction; the source only applies it
to non-empty signals, where the extra `0` base of the fold is absorbed
because absolute values are non-negative). -/
def maxAbs {K : Type} [LinearOrderedField K] (u : List K) : K :=
  u.foldr (fun x m => max |x| m) 0

/-- Embedding of `numpy.arange(0, dur, dt)`: the grid `0, dt, 2*dt, …`
of length `⌈dur/dt⌉`. -/
def arange0 {K : Type} [LinearOrderedField K] [FloorRing K] (dur dt : K) : List K :=
  (List.range ⌈dur / dt⌉.toNat).map (fun i => (i : K) * dt)

/-- Dense matrix with explicit size, entries indexed by natural numbers
(out-of-range entries are junk, never read by the embedded algorithms). -/
structure Mtx (α : Type) where
  rows : ℕ
  cols : ℕ
  entry : ℕ → ℕ → α

/-- Matrix product (`numpy.dot` / `mdot`). -/
def Mtx.mul {α : Type} [NonUnitalNonAssocSemiring α] (A B : Mtx α) : Mtx α :=
  ⟨A.rows, B.cols, fun i k => ∑ j ∈ Finset.range A.cols, A.entry i j * B.entry j k⟩

/-- Entrywise matrix difference. -/
def Mtx.sub {α : Type} [Sub α] (A B : Mtx α) : Mtx α :=
  ⟨A.rows, A.cols, fun i j => A.entry i j - B.entry i j⟩

/-- Scalar multiple of a matrix. -/
def Mtx.smul {α : Type} [Mul α] (c : α) (A : Mtx α) : Mtx α :=
  ⟨A.rows, A.cols, fun i j => c * A.entry i j⟩

/-- The fixed pseudoinverse singular-value cutoff `__pinv_rcond__ = 1e-8`
of `iaf.py`. -/
def pinv_rcond {K : Type} [DivisionRing K] : K := 1 / 100000000

section Encoder

variable {K : Type} [LinearOrderedField K] [FloorRing K]

/-- The integrate-and-fire loop of `iaf_encode` (`iaf.py` lines 156-164):
starting at sample index `i` with integrator value `y` and elapsed-interval
counter `itv`, run `n` more iterations of
`y = compute_y(y,i); interval += dt; if y >= d: emit interval; reset`.
Returns the list of emitted inter-spike intervals together with the final
`(y, interval)` state. -/
def iafFire (dt d : K) (cy : K → ℕ → K) : ℕ → ℕ → K → K → List K × K × K
  | 0, _, y, itv => ([], y, itv)
  | n + 1, i, y, itv =>
    let y' := cy y i
    let itv' := itv + dt
    if d ≤ y' then
      let r := iafFire dt d cy n (i + 1) 0 0
      (itv' :: r.1, r.2.1, r.2.2)
    else
      iafFire dt d cy n (i + 1) y' itv'

/-- Embedding of `iaf_encode(u, dt, b, d, R, C, dte, y, interval, quad_method)`
(`iaf.py` lines 116-170).  `expf` stands for `numpy.exp` and `rs` for
`scipy.signal.resample` (both external to the repository).  The result is the
array of inter-spike intervals together with the updated `(y, interval)`
state that `full_output` mode would return.  Note that, as in the source,
the empty-input early return precedes the `dte` validation, the number of
loop iterations is taken from the length of `u` *before* resampling, and the
quadrature-method tag is only examined in the non-leaky (`R = inf`) branch. -/
def iaf_encode (expf : K → K) (rs : List K → ℕ → List K) (u : List K)
    (dt b d : K) (R : Resistance K) (C dte y interval : K) (qm : String) :
    Except TedError (List K × K × K) :=
  let nu := u.length
  if nu = 0 then .ok ([], y, interval)
  else if dt < dte then .error .resolutionError
  else if dte < 0 then .error .resolutionError
  else
    let p := if dte = 0 then (u, dt) else (rs u (nu * (⌊dt / dte⌋).toNat), dte)
    let u' := p.1
    let dt' := p.2
    match R with
    | .inf =>
      if qm = "rect" then
        .ok (iafFire dt' d (fun y i => y + dt' * (b + u'.getD i 0) / C) nu 0 y interval)
      else if qm = "trapz" then
        .ok (iafFire dt' d
          (fun y i => y + dt' * (b + (u'.getD i 0 + u'.getD (i + 1) 0) / 2) / C)
          (nu - 1) 0 y interval)
      else .error .unrecognizedQuadratureMethod
    | .fin r =>
      .ok (iafFire dt' d
        (fun y i => y * expf (-dt' / (r * C)) + r * (1 - expf (-dt' / (r * C))) * (b + u'.getD i 0))
        nu 0 y interval)

/-- Index list `i, i+1, …, i+n-1` (the iteration space of the reference
integration loop). -/
def idxList (i : ℕ) : ℕ → List ℕ
  | 0 => []
  | n + 1 => i :: idxList (i + 1) n

/-- Modelled from the spec: one step of the reference integration loop of
claim C1 — update `y` by the selected rule, advance the interval counter by
`dt`, and on `y ≥ d` append the accumulated interval to the output and
reset both `y` and the counter to `0`. -/
def refStep (dt d : K) (cy : K → ℕ → K) : List K × K × K → ℕ → List K × K × K
  | (s, y, itv), i =>
    let y' := cy y i
    let itv' := itv + dt
    if d ≤ y' then (s ++ [itv'], 0, 0) else (s, y', itv')

/-- Modelled from the spec: the reference integration loop run over sample
indices `0 … n-1` from the initial state `y = 0`, `interval = 0`. -/
def refRun (dt d : K) (cy : K → ℕ → K) (n : ℕ) : List K × K × K :=
  (idxList 0 n).foldl (refStep dt d cy) ([], 0, 0)

/-- Modelled from the spec: the reference encoder of claim C1.  With `R = ∞`
and method `rect` it applies `y := y + dt*(b+u[i])/C` for every index
`i < len u`; with `R = ∞` and method `trapz` it applies
`y := y + dt*(b+(u[i]+u[i+1])/2)/C` for `i < len u - 1`; with finite `R` it
applies `y := y*exp(-dt/(R*C)) + R*(1-exp(-dt/(R*C)))*(b+u[i])` for every
index. -/
def encodeRef (expf : K → K) (u : List K) (dt b d : K) (R : Resistance K)
    (C : K) (qm : String) : List K × K × K :=
  match R with
  | .inf =>
    if qm = "rect" then
      refRun dt d (fun y i => y + dt * (b + u.getD i 0) / C) u.length
    else
      refRun dt d (fun y i => y + dt * (b + (u.getD i 0 + u.getD (i + 1) 0) / 2) / C)
        (u.length - 1)
  | .fin r =>
    refRun dt d
      (fun y i => y * expf (-dt / (r * C)) + r * (1 - expf (-dt / (r * C))) * (b + u.getD i 0))
      u.length

end Encoder

section Recoverable

variable {K : Type} [LinearOrderedField K]

/-- Embedding of `iaf_recoverable(u, bw, b, d, R, C)` (`iaf.py` lines 56-69).
`logf` stands for `numpy.log`.  The source computes
`r = R*C*log(1-d/(d-(b-c)*R))*bw/pi` and rejects a non-real `r`; in the
real-number reading, `r` fails to be a well-defined real exactly when the
logarithm's argument is not positive, which is the `nonRealRate` test here. -/
def iaf_recoverable (logf : K → K) (piK : K) (u : List K) (bw b d R C : K) :
    Except TedError Bool :=
  let c := maxAbs u
  if b ≤ c then .error .biasTooLow
  else
    let arg := 1 - d / (d - (b - c) * R)
    let r := R * C * logf arg * bw / piK
    let e := d / ((b - c) * R)
    if arg ≤ 0 then .error .nonRealRate
    else if (1 - e) / (1 + e) ≤ r then .error .reconstructionConditionViolated
    else .ok true

end Recoverable

section Quanta

variable {K : Type} [LinearOrderedField K]

/-- The quanta vector computed by `iaf_decode` (`iaf.py` lines 218 and 245):
`C*d - b*s[1:]` for `R = inf`, else `C*(d + b*R*(exp(-s[1:]/(R*C)) - 1))`. -/
def iaf_decode_q (expf : K → K) (s : List K) (b d : K) (R : Resistance K) (C : K) :
    List K :=
  match R with
  | .inf => (s.drop 1).map (fun si => C * d - b * si)
  | .fin r => (s.drop 1).map (fun si => C * (d + b * r * (expf (-si / (r * C)) - 1)))

/-- The quanta vector computed by `iaf_decode_fast` (`iaf.py` lines 301-304). -/
def iaf_decode_fast_q (expf : K → K) (s : List K) (b d : K) (R : Resistance K) (C : K) :
    List K :=
  match R with
  | .inf => (s.drop 1).map (fun si => C * d - b * si)
  | .fin r => (s.drop 1).map (fun si => C * (d + b * r * (expf (-si / (r * C)) - 1)))

/-- The quanta vector computed by `iaf_decode_vander` (`vtdm.py` lines 188-192). -/
def iaf_decode_vander_q (expf : K → K) (s : List K) (b d : K) (R : Resistance K) (C : K) :
    List K :=
  match R with
  | .inf => (s.drop 1).map (fun si => C * d - b * si)
  | .fin r => (s.drop 1).map (fun si => C * (d + b * r * (expf (-si / (r * C)) - 1)))

/-- Modelled from the spec: the quanta formula of §4.3 / claim C2 —
`C·d − b·s[1:]` in the non-leaky case and
`C·(d + b·R·(exp(−s[1:]/RC) − 1))` in the leaky case. -/
def quantaSpec (expf : K → K) (s : List K) (b d : K) (R : Resistance K) (C : K) :
    List K :=
  match R with
  | .inf => (s.drop 1).map (fun si => C * d - b * si)
  | .fin r => (s.drop 1).map (fun si => C * (d + b * r * (expf (-si / (r * C)) - 1)))

end Quanta

section Decoders

open Complex in
/-- The non-leaky reconstruction-matrix entry shared by `iaf_decode`
(`iaf.py` lines 213-217) and `iaf_decode_pop` (lines 378-381):
`G[i,j] = (Si(bw*(ts[i+1]-tsh[j])) - Si(bw*(ts[i]-tsh[j])))/pi`, where `Si`
stands for the sine integral `scipy.special.sici(.)[0]`. -/
noncomputable def G_entry_ideal (Si : ℝ → ℝ) (bw : ℝ) (ts tsh : List ℝ)
    (i j : ℕ) : ℝ :=
  (Si (bw * (ts.getD (i + 1) 0 - tsh.getD j 0)) -
    Si (bw * (ts.getD i 0 - tsh.getD j 0))) / Real.pi

open Complex in
/-- The leaky reconstruction-matrix entry shared by `iaf_decode`
(`iaf.py` lines 228-243) and `iaf_decode_pop` (lines 407-422): a closed-form
combination of the complex exponential integral `eiC` (the external
`bionet.utils.scipy_extras.ei`), with one form when the midpoint `tsh[j]`
falls strictly inside `(ts[i], ts[i+1])` and another otherwise.  The numpy
code stores the complex value into a float matrix, i.e. keeps its real
part. -/
noncomputable def G_entry_leaky (eiC : ℂ → ℂ) (bw RC : ℝ) (ts tsh : List ℝ)
    (i j : ℕ) : ℝ :=
  let a : ℝ := ts.getD i 0
  let a' : ℝ := ts.getD (i + 1) 0
  let th : ℝ := tsh.getD j 0
  let Rc : ℂ := (RC : ℂ)
  let bwc : ℂ := (bw : ℂ)
  if a < th ∧ th < a' then
    ((-I / 4) * Complex.exp (((th : ℂ) - (a' : ℂ)) / Rc) *
      (2 * eiC ((1 - I * Rc * bwc) * ((a : ℂ) - (th : ℂ)) / Rc) -
       2 * eiC ((1 - I * Rc * bwc) * ((a' : ℂ) - (th : ℂ)) / Rc) -
       2 * eiC ((1 + I * Rc * bwc) * ((a : ℂ) - (th : ℂ)) / Rc) +
       2 * eiC ((1 + I * Rc * bwc) * ((a' : ℂ) - (th : ℂ)) / Rc) +
       Complex.log (-1 - I * Rc * bwc) + Complex.log (1 - I * Rc * bwc) -
       Complex.log (-1 + I * Rc * bwc) - Complex.log (1 + I * Rc * bwc) +
       Complex.log (-I / (-I + Rc * bwc)) - Complex.log (I / (-I + Rc * bwc)) +
       Complex.log (-I / (I + Rc * bwc)) - Complex.log (I / (I + Rc * bwc))) /
      (Real.pi : ℂ)).re
  else
    ((-I / 2) * Complex.exp (((th : ℂ) - (a' : ℂ)) / Rc) *
      (eiC ((1 - I * Rc * bwc) * ((a : ℂ) - (th : ℂ)) / Rc) -
       eiC ((1 - I * Rc * bwc) * ((a' : ℂ) - (th : ℂ)) / Rc) -
       eiC ((1 + I * Rc * bwc) * ((a : ℂ) - (th : ℂ)) / Rc) +
       eiC ((1 + I * Rc * bwc) * ((a' : ℂ) - (th : ℂ)) / Rc)) /
      (Real.pi : ℂ)).re

/-- Embedding of `numpy.sinc` (normalized sinc, `sin(pi x)/(pi x)`). -/
noncomputable def sincNp (x : ℝ) : ℝ :=
  if x = 0 then 1 else Real.sin (Real.pi * x) / (Real.pi * x)

/-- Embedding of `iaf_decode(s, dur, dt, bw, b, d, R, C)`
(`iaf.py` lines 172-254).  `pinvR rcond` stands for the external
`numpy.linalg.pinv(., rcond)`. -/
noncomputable def iaf_decode (Si : ℝ → ℝ) (eiC : ℂ → ℂ)
    (pinvR : ℝ → Mtx ℝ → Mtx ℝ) (s : List ℝ) (dur dt bw b d : ℝ)
    (R : Resistance ℝ) (C : ℝ) : Except TedError (List ℝ) :=
  if s.length < 2 then .error .insufficientSpikes
  else
    let ts := cumsum s
    let tsh := midpoints ts
    let nsh := tsh.length
    let t := arange0 dur dt
    let bwpi := bw / Real.pi
    let G : Mtx ℝ := ⟨nsh, nsh, fun i j =>
      match R with
      | .inf => G_entry_ideal Si bw ts tsh i j
      | .fin r => G_entry_leaky eiC bw (r * C) ts tsh i j⟩
    let q := iaf_decode_q Real.exp s b d R C
    let qcol : Mtx ℝ := ⟨nsh, 1, fun i _ => q.getD i 0⟩
    let c := (pinvR pinv_rcond G).mul qcol
    .ok (t.map (fun tv =>
      ∑ i ∈ Finset.range nsh, sincNp (bwpi * (tv - tsh.getD i 0)) * bwpi * c.entry i 0))

open Complex in
/-- Embedding of `iaf_decode_fast(s, dur, dt, bw, M, b, d, R, C)`
(`iaf.py` lines 256-317).  `pinvC rcond` stands for the external complex
`numpy.linalg.pinv(., rcond)`. -/
noncomputable def iaf_decode_fast (pinvC : ℝ → Mtx ℂ → Mtx ℂ) (s : List ℝ)
    (dur dt bw : ℝ) (M : ℕ) (b d : ℝ) (R : Resistance ℝ) (C : ℝ) :
    Except TedError (List ℝ) :=
  if s.length < 2 then .error .insufficientSpikes
  else
    let ts := cumsum s
    let nsh := s.length - 1
    let t := arange0 dur dt
    let jbwM : ℂ := I * (bw : ℂ) / (M : ℂ)
    let q := iaf_decode_fast_q Real.exp s b d R C
    let a : ℝ := bw / (Real.pi * (2 * M + 1))
    let mval : ℕ → ℤ := fun i => (i : ℤ) - (M : ℤ)
    let Pinv : Mtx ℂ := ⟨nsh, nsh, fun i j => if i ≤ j then -1 else 0⟩
    let S : Mtx ℂ := ⟨2 * M + 1, nsh, fun i j =>
      Complex.exp (-jbwM * ((mval i : ℤ) : ℂ) * ((ts.getD j 0 : ℝ) : ℂ))⟩
    let D : Mtx ℂ := ⟨nsh, nsh, fun i j =>
      if i = j then ((s.getD (i + 1) 0 : ℝ) : ℂ) else 0⟩
    let SD := S.mul D
    let Sct : Mtx ℂ := ⟨nsh, 2 * M + 1, fun i j => star (S.entry j i)⟩
    let T := Mtx.smul (a : ℂ) (SD.mul Sct)
    let qcol : Mtx ℂ := ⟨nsh, 1, fun i _ => ((q.getD i 0 : ℝ) : ℂ)⟩
    let dd := Mtx.smul (a : ℂ) ((pinvC pinv_rcond T).mul (SD.mul (Pinv.mul qcol)))
    .ok (t.map (fun tv =>
      (jbwM * ∑ i ∈ Finset.range (2 * M + 1),
        ((mval i : ℤ) : ℂ) * dd.entry i 0 *
          Complex.exp (jbwM * ((mval i : ℤ) : ℂ) * ((tv : ℝ) : ℂ))).re))

/-- The quanta vector stacked by `iaf_decode_pop` (`iaf.py` lines 370,
386-388 and 427-430): the branch between the non-leaky and the leaky
formula is taken once, on `all(isinf(R_list))`, for the whole population.
In the leaky branch the formula is evaluated with each encoder's own
`R_list[l]`; for an encoder with `R_list[l] = inf` this float expression
has no finite value (`inf * 0` is NaN), modelled by the junk value
`fnan`. -/
noncomputable def iaf_decode_pop_q (fnan : ℝ) (s_list : List (List ℝ))
    (b_list d_list : List ℝ) (R_list : List (Resistance ℝ)) (C_list : List ℝ) :
    List ℝ :=
  (List.range s_list.length).flatMap (fun l =>
    let s := s_list.getD l []
    let b := b_list.getD l 0
    let d := d_list.getD l 0
    let C := C_list.getD l 0
    if R_list.all Resistance.isInf then
      (s.drop 1).map (fun si => C * d - b * si)
    else
      match R_list.getD l Resistance.inf with
      | .fin r => (s.drop 1).map (fun si => C * (d + b * r * (Real.exp (-si / (r * C)) - 1)))
      | .inf => (s.drop 1).map (fun _ => fnan))

/-- Modelled from the spec (claim C4): the quanta vector stacked per
encoder from each encoder's own `(b, d, R, C)`, selecting the non-leaky or
leaky formula by that encoder's own leak status. -/
noncomputable def pop_q_spec (s_list : List (List ℝ)) (b_list d_list : List ℝ)
    (R_list : List (Resistance ℝ)) (C_list : List ℝ) : List ℝ :=
  (List.range s_list.length).flatMap (fun l =>
    let s := s_list.getD l []
    let b := b_list.getD l 0
    let d := d_list.getD l 0
    let C := C_list.getD l 0
    match R_list.getD l Resistance.inf with
    | .inf => (s.drop 1).map (fun si => C * d - b * si)
    | .fin r => (s.drop 1).map (fun si => C * (d + b * r * (Real.exp (-si / (r * C)) - 1))))

/-- The `(l,m)`-block entry `(n,k)` of the reconstruction matrix built by
`iaf_decode_pop` (`iaf.py` lines 370-425): the non-leaky (sine-integral)
entries are used for *every* block when `all(isinf(R_list))` holds, and the
leaky (exponential-integral) entries, evaluated with `RC = R_list[l]*C_list[l]`,
are used for every block otherwise.  In the latter case an encoder `l` with
`R_list[l] = inf` yields a float expression with no finite value (NaN),
modelled by the junk value `fnan`. -/
noncomputable def iaf_decode_pop_G_entry (Si : ℝ → ℝ) (eiC : ℂ → ℂ) (fnan : ℝ)
    (bw : ℝ) (s_list : List (List ℝ)) (R_list : List (Resistance ℝ))
    (C_list : List ℝ) (l m n k : ℕ) : ℝ :=
  let ts := cumsum (s_list.getD l [])
  let tsh := midpoints (cumsum (s_list.getD m []))
  if R_list.all Resistance.isInf then
    G_entry_ideal Si bw ts tsh n k
  else
    match R_list.getD l Resistance.inf with
    | .fin r => G_entry_leaky eiC bw (r * C_list.getD l 0) ts tsh n k
    | .inf => fnan

/-- Modelled from the spec (claim C4): the `(l,m)`-block entry selected by
that encoder pair's own leak status — the sine-integral entries when the
relevant resistance `R_list[l]` is infinite, the exponential-integral
entries when it is finite — independently of the other encoders. -/
noncomputable def pop_G_entry_spec (Si : ℝ → ℝ) (eiC : ℂ → ℂ) (bw : ℝ)
    (s_list : List (List ℝ)) (R_list : List (Resistance ℝ)) (C_list : List ℝ)
    (l m n k : ℕ) : ℝ :=
  let ts := cumsum (s_list.getD l [])
  let tsh := midpoints (cumsum (s_list.getD m []))
  match R_list.getD l Resistance.inf with
  | .inf => G_entry_ideal Si bw ts tsh n k
  | .fin r => G_entry_leaky eiC bw (r * C_list.getD l 0) ts tsh n k

/-- Splits a global (stacked) row index into `(block, offset)` with respect
to the block sizes `Nsh` (the per-encoder midpoint counts). -/
def locate : List ℕ → ℕ → ℕ × ℕ
  | [], i => (0, i)
  | n :: rest, i =>
    if i < n then (0, i)
    else
      let p := locate rest (i - n)
      (p.1 + 1, p.2)

/-- Embedding of `iaf_decode_pop(s_list, dur, dt, bw, b_list, d_list,
R_list, C_list)` (`iaf.py` lines 319-441). -/
noncomputable def iaf_decode_pop (Si : ℝ → ℝ) (eiC : ℂ → ℂ)
    (pinvR : ℝ → Mtx ℝ → Mtx ℝ) (fnan : ℝ) (s_list : List (List ℝ))
    (dur dt bw : ℝ) (b_list d_list : List ℝ) (R_list : List (Resistance ℝ))
    (C_list : List ℝ) : Except TedError (List ℝ) :=
  if s_list.length = 0 then .error .noSpikeData
  else
    let M := s_list.length
    let tsh_list := s_list.map (fun s => midpoints (cumsum s))
    let Nsh := tsh_list.map List.length
    let total := Nsh.sum
    let G : Mtx ℝ := ⟨total, total, fun i j =>
      iaf_decode_pop_G_entry Si eiC fnan bw s_list R_list C_list
        (locate Nsh i).1 (locate Nsh j).1 (locate Nsh i).2 (locate Nsh j).2⟩
    let q := iaf_decode_pop_q fnan s_list b_list d_list R_list C_list
    let qcol : Mtx ℝ := ⟨total, 1, fun i _ => q.getD i 0⟩
    let c := (pinvR pinv_rcond G).mul qcol
    let t := arange0 dur dt
    let bwpi := bw / Real.pi
    .ok (t.map (fun tv =>
      ∑ mi ∈ Finset.range M, ∑ k ∈ Finset.range (Nsh.getD mi 0),
        sincNp (bwpi * (tv - (tsh_list.getD mi []).getD k 0)) * bwpi *
          c.entry ((Nsh.take mi).sum + k) 0))

end Decoders

section Vander

open Complex in
/-- The node vector `z = exp(1j*2*bw*ts[:-1]/n)` built by
`asdm_decode_vander` (`vtdm.py` lines 46-52), with `ns = len(s)-1` and
`n = ns-1`: one node per spike time except the last. -/
noncomputable def asdm_decode_vander_z (bw : ℝ) (s : List ℝ) : List ℂ :=
  let ts := cumsum s
  let ns : ℤ := (s.length : ℤ) - 1
  let n : ℤ := ns - 1
  ts.dropLast.map (fun ti => Complex.exp (I * 2 * (bw : ℂ) * ((ti : ℝ) : ℂ) / ((n : ℤ) : ℂ)))

open Complex in
/-- The node vector built by `asdm_decode_vander_ins`
(`vtdm.py` lines 102-109). -/
noncomputable def asdm_decode_vander_ins_z (bw : ℝ) (s : List ℝ) : List ℂ :=
  let ts := cumsum s
  let ns : ℤ := (s.length : ℤ) - 1
  let n : ℤ := ns - 1
  ts.dropLast.map (fun ti => Complex.exp (I * 2 * (bw : ℂ) * ((ti : ℝ) : ℂ) / ((n : ℤ) : ℂ)))

open Complex in
/-- The node vector built by `iaf_decode_vander`
(`vtdm.py` lines 175-182). -/
noncomputable def iaf_decode_vander_z (bw : ℝ) (s : List ℝ) : List ℂ :=
  let ts := cumsum s
  let ns : ℤ := (s.length : ℤ) - 1
  let n : ℤ := ns - 1
  ts.dropLast.map (fun ti => Complex.exp (I * 2 * (bw : ℂ) * ((ti : ℝ) : ℂ) / ((n : ℤ) : ℂ)))

/-- The matrix `V = fliplr(vander(z))` of `asdm_decode_vander`
(`vtdm.py` line 54): the square Vandermonde matrix on the nodes `z` with
ascending powers along each row. -/
noncomputable def asdm_decode_vander_V (bw : ℝ) (s : List ℝ) : Mtx ℂ :=
  let z := asdm_decode_vander_z bw s
  ⟨z.length, z.length, fun i j => z.getD i 0 ^ j⟩

/-- The matrix `V = fliplr(vander(z))` of `asdm_decode_vander_ins`
(`vtdm.py` line 110). -/
noncomputable def asdm_decode_vander_ins_V (bw : ℝ) (s : List ℝ) : Mtx ℂ :=
  let z := asdm_decode_vander_ins_z bw s
  ⟨z.length, z.length, fun i j => z.getD i 0 ^ j⟩

/-- The matrix `V = fliplr(vander(z))` of `iaf_decode_vander`
(`vtdm.py` line 184). -/
noncomputable def iaf_decode_vander_V (bw : ℝ) (s : List ℝ) : Mtx ℂ :=
  let z := iaf_decode_vander_z bw s
  ⟨z.length, z.length, fun i j => z.getD i 0 ^ j⟩

open Complex in
/-- Embedding of `asdm_decode_vander(s, dur, dt, bw, b, d, k, sgn)`
(`vtdm.py` lines 17-75).  `bpa` stands for the Björck-Pereyra-style solver
`bionet.ted.bpa.bpa`, whose module is not among the sources; it is taken as
an abstract solver parameter.  Note the function performs no validation of
the spike count. -/
noncomputable def asdm_decode_vander (bpa : Mtx ℂ → Mtx ℂ → Mtx ℂ)
    (s : List ℝ) (dur dt bw b d k : ℝ) (sgn : ℤ) : Except TedError (List ℝ) :=
  let ts := cumsum s
  let ns : ℕ := s.length - 1
  let n : ℤ := (s.length : ℤ) - 2
  let V := asdm_decode_vander_V bw s
  let P : Mtx ℂ := ⟨ns, ns, fun i j => if i ≤ j then 1 else 0⟩
  let D : Mtx ℂ := ⟨ns, ns, fun i j =>
    if i = j then Complex.exp (I * (bw : ℂ) * ((ts.dropLast.getD i 0 : ℝ) : ℂ)) else 0⟩
  let q : ℕ → ℝ := fun i =>
    if sgn = -1 then (-1 : ℝ) ^ i * (2 * k * d - b * s.getD (i + 1) 0)
    else (-1 : ℝ) ^ (i + 1) * (2 * k * d - b * s.getD (i + 1) 0)
  let qcol : Mtx ℂ := ⟨ns, 1, fun i _ => ((q i : ℝ) : ℂ)⟩
  let dcoef := bpa V (D.mul (P.mul qcol))
  let t := arange0 dur dt
  .ok (t.map (fun tv =>
    ∑ i ∈ Finset.range ns,
      ((I * ((bw : ℂ) - (i : ℂ) * 2 * (bw : ℂ) / ((n : ℤ) : ℂ))) * dcoef.entry i 0 *
        Complex.exp (-(I * ((bw : ℂ) - (i : ℂ) * 2 * (bw : ℂ) / ((n : ℤ) : ℂ))) *
          ((tv : ℝ) : ℂ))).re))

open Complex in
/-- Embedding of `asdm_decode_vander_ins(s, dur, dt, bw, b, sgn)`
(`vtdm.py` lines 77-145), the threshold-insensitive variant: two `bpa`
solves combined through the projection that cancels the
threshold-dependent component.  No spike-count validation is performed. -/
noncomputable def asdm_decode_vander_ins (bpa : Mtx ℂ → Mtx ℂ → Mtx ℂ)
    (s : List ℝ) (dur dt bw b : ℝ) (sgn : ℤ) : Except TedError (List ℝ) :=
  let ts := cumsum s
  let ns : ℕ := s.length - 1
  let n : ℤ := (s.length : ℤ) - 2
  let V := asdm_decode_vander_ins_V bw s
  let D : Mtx ℂ := ⟨ns, ns, fun i j =>
    if i = j then Complex.exp (I * (bw : ℂ) * ((ts.dropLast.getD i 0 : ℝ) : ℂ)) else 0⟩
  let P : Mtx ℂ := ⟨ns, ns, fun i j => if i ≤ j then 1 else 0⟩
  let a : Mtx ℂ := ⟨ns, 1, fun i _ => if i < ns ∧ (ns - 1 - i) % 2 = 0 then 1 else 0⟩
  let bh : Mtx ℂ := ⟨1, ns, fun _ j => if 0 < ns ∧ j = ns - 1 then 1 else 0⟩
  let ex : ℕ → ℝ := fun i =>
    if sgn = -1 then (if i % 2 = 0 then -1 else 1) else (if i % 2 = 1 then -1 else 1)
  let rv : Mtx ℂ := ⟨ns, 1, fun i _ => ((ex i * s.getD (i + 1) 0 : ℝ) : ℂ)⟩
  let x := bpa V (D.mul ((P.sub (a.mul bh)).mul rv))
  let y := bpa V (D.mul a)
  let yx : ℂ := ∑ i ∈ Finset.range ns, star (y.entry i 0) * x.entry i 0
  let yy : ℂ := ∑ i ∈ Finset.range ns, star (y.entry i 0) * y.entry i 0
  let dcoef : ℕ → ℂ := fun i => (b : ℂ) * (x.entry i 0 - y.entry i 0 * yx / yy)
  let t := arange0 dur dt
  .ok (t.map (fun tv =>
    ∑ i ∈ Finset.range ns,
      ((I * ((bw : ℂ) - (i : ℂ) * 2 * (bw : ℂ) / ((n : ℤ) : ℂ))) * dcoef i *
        Complex.exp (-(I * ((bw : ℂ) - (i : ℂ) * 2 * (bw : ℂ) / ((n : ℤ) : ℂ))) *
          ((tv : ℝ) : ℂ))).re))

open Complex in
/-- Embedding of `iaf_decode_vander(s, dur, dt, bw, b, d, R, C)`
(`vtdm.py` lines 147-205).  As in the source, no spike-count validation is
performed: the body unconditionally proceeds to the Vandermonde system. -/
noncomputable def iaf_decode_vander (bpa : Mtx ℂ → Mtx ℂ → Mtx ℂ)
    (s : List ℝ) (dur dt bw b d : ℝ) (R : Resistance ℝ) (C : ℝ) :
    Except TedError (List ℝ) :=
  let ts := cumsum s
  let ns : ℕ := s.length - 1
  let n : ℤ := (s.length : ℤ) - 2
  let V := iaf_decode_vander_V bw s
  let P : Mtx ℂ := ⟨ns, ns, fun i j => if i ≤ j then 1 else 0⟩
  let D : Mtx ℂ := ⟨ns, ns, fun i j =>
    if i = j then Complex.exp (I * (bw : ℂ) * ((ts.dropLast.getD i 0 : ℝ) : ℂ)) else 0⟩
  let q := iaf_decode_vander_q Real.exp s b d R C
  let qcol : Mtx ℂ := ⟨ns, 1, fun i _ => ((q.getD i 0 : ℝ) : ℂ)⟩
  let dcoef := bpa V (D.mul (P.mul qcol))
  let t := arange0 dur dt
  .ok (t.map (fun tv =>
    ∑ i ∈ Finset.range ns,
      ((I * ((bw : ℂ) - (i : ℂ) * 2 * (bw : ℂ) / ((n : ℤ) : ℂ))) * dcoef.entry i 0 *
        Complex.exp (-(I * ((bw : ℂ) - (i : ℂ) * 2 * (bw : ℂ) / ((n : ℤ) : ℂ))) *
          ((tv : ℝ) : ℂ))).re))

end Vander

section EncoderProofs

variable {K : Type} [LinearOrderedField K] [FloorRing K]

/-- The output prefix factors out of the reference fold: running the loop
from a state whose output list is `s` appends to `s` exactly what the loop
emits from the empty output list. -/
lemma foldl_refStep_prefix (dt d : K) (cy : K → ℕ → K) (l : List ℕ) :
    ∀ (s : List K) (y itv : K),
      l.foldl (refStep dt d cy) (s, y, itv) =
        (s ++ (l.foldl (refStep dt d cy) ([], y, itv)).1,
         (l.foldl (refStep dt d cy) ([], y, itv)).2) := by
  induction l with
  | nil => intro s y itv; simp
  | cons i l ih =>
    intro s y itv
    simp only [List.foldl_cons, refStep]
    by_cases h : d ≤ cy y i
    · simp only [if_pos h, List.nil_append]
      rw [ih (s ++ [itv + dt]) 0 0, ih [itv + dt] 0 0]
      simp
    · simp only [if_neg h]
      exact ih s (cy y i) (itv + dt)

/-- The source's integrate-and-fire loop coincides with the reference fold
over the corresponding index list. -/
lemma iafFire_eq_foldl (dt d : K) (cy : K → ℕ → K) :
    ∀ (n i : ℕ) (y itv : K),
      iafFire dt d cy n i y itv =
        (idxList i n).foldl (refStep dt d cy) ([], y, itv) := by
  intro n
  induction n with
  | zero => intro i y itv; simp [iafFire, idxList]
  | succ n ih =>
    intro i y itv
    simp only [iafFire, idxList, List.foldl_cons, refStep, List.nil_append]
    by_cases h : d ≤ cy y i
    · simp only [if_pos h]
      rw [ih (i + 1) 0 0,
        foldl_refStep_prefix dt d cy (idxList (i + 1) n) [itv + dt] 0 0]
      simp
    · simp only [if_neg h]
      exact ih (i + 1) (cy y i) (itv + dt)

/-- C1: with the default encoder state (`dte = 0`, `y = 0`, `interval = 0`)
and an admissible quadrature method, `iaf_encode` computes exactly the
reference integration loop of the specification: the `rect` rule over every
sample index, the `trapz` rule over one fewer index, the exponential-Euler
rule over every index when `R` is finite; the interval counter advances by
`dt` each step, a crossing `y ≥ d` emits the accumulated interval and resets
both `y` and the counter, and the empty input yields the empty spike
train. -/
theorem iaf_encode_matches_reference (expf : K → K) (rs : List K → ℕ → List K)
    (u : List K) (dt b d C : K) (R : Resistance K) (qm : String)
    (hdt : 0 ≤ dt) (hqm : R = Resistance.inf → qm = "rect" ∨ qm = "trapz") :
    iaf_encode expf rs u dt b d R C 0 0 0 qm =
      Except.ok (encodeRef expf u dt b d R C qm) := by
  by_cases hu : u.length = 0
  · have hu' : u = [] := List.length_eq_zero.mp hu
    subst hu'
    have he : encodeRef expf ([] : List K) dt b d R C qm = ([], 0, 0) := by
      cases R with
      | inf => by_cases hq : qm = "rect" <;> simp [encodeRef, hq, refRun, idxList]
      | fin r => simp [encodeRef, refRun, idxList]
    rw [he]
    simp [iaf_encode]
  · have h1 : ¬ dt < (0 : K) := not_lt.mpr hdt
    have h2 : ¬ (0 : K) < 0 := lt_irrefl 0
    simp only [iaf_encode, if_neg hu, if_neg h1, if_neg h2]
    simp only [if_true]
    cases R with
    | inf =>
      rcases hqm rfl with hq | hq
      · subst hq
        simp [encodeRef, refRun, iafFire_eq_foldl]
      · subst hq
        simp [encodeRef, refRun, iafFire_eq_foldl]
    | fin r =>
      simp [encodeRef, refRun, iafFire_eq_foldl]

/-- Witness for C1: a concrete rectangular-rule encoding over `ℚ`. -/
theorem iaf_encode_matches_reference_witness :
    iaf_encode (K := ℚ) id (fun v _ => v) [1, 2] 1 0 1 Resistance.inf 1 0 0 0 "rect" =
      Except.ok (encodeRef (K := ℚ) id [1, 2] 1 0 1 Resistance.inf 1 "rect") :=
  iaf_encode_matches_reference id (fun v _ => v) [1, 2] 1 0 1 1 Resistance.inf "rect"
    (by norm_num) (fun _ => Or.inl rfl)

end EncoderProofs

/-- Whether an embedded call returned a value rather than an error. -/
def isOkE {ε α : Type} : Except ε α → Bool
  | .ok _ => true
  | .error _ => false

@[simp] lemma isOkE_ok {ε α : Type} (a : α) :
    isOkE (Except.ok a : Except ε α) = true := rfl

@[simp] lemma isOkE_error {ε α : Type} (e : ε) :
    isOkE (Except.error e : Except ε α) = false := rfl

/-- C2: for a spike train with at least two elements, the quanta vectors of
`iaf_decode`, `iaf_decode_fast` and `iaf_decode_vander` all equal the
claimed closed form `C*d - b*s[1:]` (non-leaky) /
`C*(d + b*R*(exp(-s[1:]/(R*C)) - 1))` (leaky). -/
theorem quanta_paths_agree {K : Type} [LinearOrderedField K] (expf : K → K)
    (s : List K) (b d C : K) (R : Resistance K) (h : 2 ≤ s.length) :
    iaf_decode_q expf s b d R C = quantaSpec expf s b d R C ∧
      iaf_decode_fast_q expf s b d R C = iaf_decode_q expf s b d R C ∧
      iaf_decode_vander_q expf s b d R C = iaf_decode_q expf s b d R C := by
  refine ⟨?_, ?_, ?_⟩ <;> cases R <;> rfl

/-- Witness for C2 at a concrete two-spike train over `ℚ`. -/
theorem quanta_paths_agree_witness :
    iaf_decode_q (K := ℚ) id [1, 2] 3 4 Resistance.inf 5 =
        quantaSpec (K := ℚ) id [1, 2] 3 4 Resistance.inf 5 ∧
      iaf_decode_fast_q (K := ℚ) id [1, 2] 3 4 Resistance.inf 5 =
        iaf_decode_q (K := ℚ) id [1, 2] 3 4 Resistance.inf 5 ∧
      iaf_decode_vander_q (K := ℚ) id [1, 2] 3 4 Resistance.inf 5 =
        iaf_decode_q (K := ℚ) id [1, 2] 3 4 Resistance.inf 5 :=
  quanta_paths_agree id [1, 2] 3 4 5 Resistance.inf (by norm_num)

/-- C7 (amended): with a non-empty input and admissible `dte`, an
unrecognized quadrature-method tag makes the encoder fail with
`UnrecognizedQuadratureMethod` when `R` is infinite; when `R` is finite the
tag is ignored and the leaky exponential-Euler encoding proceeds without
error. -/
theorem iaf_encode_unrecognized_method {K : Type} [LinearOrderedField K]
    [FloorRing K] (expf : K → K) (rs : List K → ℕ → List K) (u : List K)
    (dt b d C dte y0 i0 r : K) (qm : String)
    (hu : u ≠ []) (h1 : dte ≤ dt) (h2 : 0 ≤ dte)
    (hq1 : qm ≠ "rect") (hq2 : qm ≠ "trapz") :
    iaf_encode expf rs u dt b d Resistance.inf C dte y0 i0 qm =
        Except.error TedError.unrecognizedQuadratureMethod ∧
      isOkE (iaf_encode expf rs u dt b d (Resistance.fin r) C dte y0 i0 qm) = true := by
  have hu0 : ¬ u.length = 0 := by simpa using hu
  have hd1 : ¬ dt < dte := not_lt.mpr h1
  have hd2 : ¬ dte < 0 := not_lt.mpr h2
  constructor
  · simp [iaf_encode, hu0, hd1, hd2, hq1, hq2]
  · simp [iaf_encode, hu0, hd1, hd2]

/-- C7 counterexample: with a finite (leaky) resistance the method tag is
never examined — encoding `[0]` with the unknown tag `"foo"` succeeds
instead of failing with `UnrecognizedQuadratureMethod`. -/
theorem iaf_encode_unrecognized_method_counterexample :
    iaf_encode (K := ℚ) id (fun v _ => v) [0] 1 2 1 (Resistance.fin 1) 1 0 0 0 "foo" ≠
      Except.error TedError.unrecognizedQuadratureMethod := by
  intro h
  have hok : isOkE (iaf_encode (K := ℚ) id (fun v _ => v) [0] 1 2 1
      (Resistance.fin 1) 1 0 0 0 "foo") = true := rfl
  rw [h] at hok
  exact Bool.noConfusion hok

/-- Witness for C7 (amended) at a concrete input over `ℚ`. -/
theorem iaf_encode_unrecognized_method_witness :
    iaf_encode (K := ℚ) id (fun v _ => v) [0] 1 2 1 Resistance.inf 1 0 0 0 "zzz" =
        Except.error TedError.unrecognizedQuadratureMethod ∧
      isOkE (iaf_encode (K := ℚ) id (fun v _ => v) [0] 1 2 1 (Resistance.fin 1) 1 0 0 0 "zzz") =
        true :=
  iaf_encode_unrecognized_method id (fun v _ => v) [0] 1 2 1 1 0 0 0 1 "zzz"
    (by simp) (by norm_num) le_rfl (by decide) (by decide)

/-- C8 (amended): for a NON-empty input the encoder fails with
`ResolutionError` whenever the encoding resolution `dte` is negative or
exceeds the signal resolution `dt`; the empty input short-circuits to an
empty spike train before this validation. -/
theorem iaf_encode_resolution_error {K : Type} [LinearOrderedField K]
    [FloorRing K] (expf : K → K) (rs : List K → ℕ → List K) (u : List K)
    (dt b d C dte y0 i0 : K) (R : Resistance K) (qm : String)
    (hu : u ≠ []) (h : dt < dte ∨ dte < 0) :
    iaf_encode expf rs u dt b d R C dte y0 i0 qm =
      Except.error TedError.resolutionError := by
  have hu0 : ¬ u.length = 0 := by simpa using hu
  rcases h with h | h
  · simp [iaf_encode, hu0, h]
  · by_cases h1 : dt < dte
    · simp [iaf_encode, hu0, h1]
    · simp [iaf_encode, hu0, h1, h]

/-- C8 counterexample: the empty signal bypasses the `dte` validation —
with `dte = 2 > dt = 1` the encoder returns an empty spike train instead of
failing with `ResolutionError`. -/
theorem iaf_encode_resolution_error_counterexample :
    iaf_encode (K := ℚ) id (fun v _ => v) [] 1 0 1 Resistance.inf 1 2 0 0 "rect" ≠
      Except.error TedError.resolutionError := by
  intro h
  have hok : isOkE (iaf_encode (K := ℚ) id (fun v _ => v) [] 1 0 1
      Resistance.inf 1 2 0 0 "rect") = true := rfl
  rw [h] at hok
  exact Bool.noConfusion hok

/-- Witness for C8 (amended) at a concrete input over `ℚ`. -/
theorem iaf_encode_resolution_error_witness :
    iaf_encode (K := ℚ) id (fun v _ => v) [0] 1 0 1 Resistance.inf 1 2 0 0 "rect" =
      Except.error TedError.resolutionError :=
  iaf_encode_resolution_error id (fun v _ => v) [0] 1 0 1 1 2 0 0 Resistance.inf "rect"
    (by simp) (Or.inl (by norm_num))

section IntervalProofs

variable {K : Type} [LinearOrderedField K]

/-- Every interval emitted by the integrate-and-fire loop is at least `dt`,
provided the elapsed-interval counter starts non-negative. -/
lemma iafFire_forall_ge (dt d : K) (cy : K → ℕ → K) (hdt : 0 < dt) :
    ∀ (n i : ℕ) (y itv : K), 0 ≤ itv →
      ∀ x ∈ (iafFire dt d cy n i y itv).1, dt ≤ x := by
  intro n
  induction n with
  | zero => intro i y itv _ x hx; simp [iafFire] at hx
  | succ n ih =>
    intro i y itv hitv x hx
    simp only [iafFire] at hx
    by_cases h : d ≤ cy y i
    · rw [if_pos h] at hx
      rcases List.mem_cons.mp hx with rfl | hx'
      · exact le_add_of_nonneg_left hitv
      · exact ih (i + 1) 0 0 le_rfl x hx'
    · rw [if_neg h] at hx
      exact ih (i + 1) (cy y i) (itv + dt) (add_nonneg hitv hdt.le) x hx

/-- Partial sums of a list of positive values form a chain increasing from
the initial accumulator. -/
lemma chain_lt_cumsumFrom (a : K) (l : List K) (h : ∀ x ∈ l, 0 < x) :
    List.Chain (· < ·) a (cumsumFrom a l) := by
  induction l generalizing a with
  | nil => exact List.Chain.nil
  | cons x xs ih =>
    exact List.Chain.cons (lt_add_of_pos_right a (h x (List.mem_cons_self x xs)))
      (ih (a + x) (fun z hz => h z (List.mem_cons_of_mem x hz)))

/-- The cumulative sums of a list of positive values are strictly
increasing. -/
lemma chain'_lt_cumsum (l : List K) (h : ∀ x ∈ l, 0 < x) :
    List.Chain' (· < ·) (cumsum l) := by
  have hc := chain_lt_cumsumFrom (0 : K) l h
  unfold cumsum
  cases hcc : cumsumFrom (0 : K) l with
  | nil => exact trivial
  | cons a t =>
    rw [hcc] at hc
    cases hc with
    | cons _ ht => exact ht

/-- Transports a universally quantified membership property along an
equality of a pair whose first component is a list. -/
lemma mem_all_of_eq {α β : Type} {t : List α × β} {s : List α} {r : β}
    (h : t = (s, r)) {P : α → Prop} (hp : ∀ x ∈ t.1, P x) : ∀ x ∈ s, P x := by
  rw [h] at hp
  exact hp

end IntervalProofs

/-- C10: with `dt > 0`, the default `dte = 0`, and a non-negative initial
interval counter, every inter-spike interval emitted by `iaf_encode` is at
least `dt` (hence strictly positive), so the cumulative sums of the
returned spike train form a strictly increasing sequence of spike times. -/
theorem iaf_encode_intervals_positive {K : Type} [LinearOrderedField K]
    [FloorRing K] (expf : K → K) (rs : List K → ℕ → List K) (u : List K)
    (dt b d C y0 i0 : K) (R : Resistance K) (qm : String)
    (s : List K) (yf vf : K)
    (hdt : 0 < dt) (hi0 : 0 ≤ i0)
    (henc : iaf_encode expf rs u dt b d R C 0 y0 i0 qm = Except.ok (s, yf, vf)) :
    s.all (fun x => decide (dt ≤ x)) = true ∧ List.Chain' (· < ·) (cumsum s) := by
  have hmem : ∀ x ∈ s, dt ≤ x := by
    by_cases hu : u.length = 0
    · simp only [iaf_encode, if_pos hu] at henc
      have hs : ([] : List K) = s := congrArg Prod.fst (Except.ok.inj henc)
      rw [← hs]
      intro x hx
      simp at hx
    · have h1 : ¬ dt < (0 : K) := not_lt.mpr hdt.le
      have h2 : ¬ (0 : K) < 0 := lt_irrefl 0
      simp only [iaf_encode, if_neg hu, if_neg h1, if_neg h2] at henc
      simp only [if_true] at henc
      cases R with
      | inf =>
        by_cases hq : qm = "rect"
        · rw [if_pos hq] at henc
          exact mem_all_of_eq (Except.ok.inj henc)
            (iafFire_forall_ge dt d _ hdt u.length 0 y0 i0 hi0)
        · rw [if_neg hq] at henc
          by_cases hq' : qm = "trapz"
          · rw [if_pos hq'] at henc
            exact mem_all_of_eq (Except.ok.inj henc)
              (iafFire_forall_ge dt d _ hdt (u.length - 1) 0 y0 i0 hi0)
          · rw [if_neg hq'] at henc
            exact absurd henc (by simp)
      | fin r =>
        exact mem_all_of_eq (Except.ok.inj henc)
          (iafFire_forall_ge dt d _ hdt u.length 0 y0 i0 hi0)
  constructor
  · rw [List.all_eq_true]
    intro x hx
    exact decide_eq_true (hmem x hx)
  · exact chain'_lt_cumsum s (fun x hx => hdt.trans_le (hmem x hx))

deriving instance DecidableEq for Except

/-- Witness for C10: a concrete rectangular encoding over `ℚ` emitting two
spikes. -/
theorem iaf_encode_intervals_positive_witness :
    (([1, 1] : List ℚ).all (fun x => decide ((1 : ℚ) ≤ x)) = true) ∧
      List.Chain' (· < ·) (cumsum ([1, 1] : List ℚ)) :=
  iaf_encode_intervals_positive id (fun v _ => v) [1, 1] 1 0 1 1 0 0
    Resistance.inf "rect" [1, 1] 0 0 (by norm_num) le_rfl
    (by norm_num [iaf_encode, iafFire])

/-- C5: the recoverability checker fails with `BiasTooLow` exactly when
`max|u| ≥ b`; otherwise, with `arg = 1 - d/(d-(b-c)R)` the argument of the
logarithm defining `r = R·C·ln(arg)·bw/π` and `e = d/((b-c)R)`, it fails
with `NonRealRate` when `arg ≤ 0` (i.e. `r` is not a well-defined real),
fails with `ReconstructionConditionViolated` when `r` is real and
`r ≥ (1-e)/(1+e)`, and returns success in all remaining cases. -/
theorem iaf_recoverable_characterization (u : List ℝ) (bw b d R C : ℝ)
    (hne : u ≠ []) :
    (b ≤ maxAbs u →
      iaf_recoverable Real.log Real.pi u bw b d R C =
        Except.error TedError.biasTooLow) ∧
    (maxAbs u < b → 1 - d / (d - (b - maxAbs u) * R) ≤ 0 →
      iaf_recoverable Real.log Real.pi u bw b d R C =
        Except.error TedError.nonRealRate) ∧
    (maxAbs u < b → 0 < 1 - d / (d - (b - maxAbs u) * R) →
      (1 - d / ((b - maxAbs u) * R)) / (1 + d / ((b - maxAbs u) * R)) ≤
          R * C * Real.log (1 - d / (d - (b - maxAbs u) * R)) * bw / Real.pi →
      iaf_recoverable Real.log Real.pi u bw b d R C =
        Except.error TedError.reconstructionConditionViolated) ∧
    (maxAbs u < b → 0 < 1 - d / (d - (b - maxAbs u) * R) →
      R * C * Real.log (1 - d / (d - (b - maxAbs u) * R)) * bw / Real.pi <
          (1 - d / ((b - maxAbs u) * R)) / (1 + d / ((b - maxAbs u) * R)) →
      iaf_recoverable Real.log Real.pi u bw b d R C = Except.ok true) := by
  refine ⟨?_, ?_, ?_, ?_⟩
  · intro h
    simp only [iaf_recoverable, if_pos h]
  · intro h1 h2
    simp only [iaf_recoverable, if_neg (not_le.mpr h1), if_pos h2]
  · intro h1 h2 h3
    simp only [iaf_recoverable, if_neg (not_le.mpr h1), if_neg (not_le.mpr h2),
      if_pos h3]
  · intro h1 h2 h3
    simp only [iaf_recoverable, if_neg (not_le.mpr h1), if_neg (not_le.mpr h2),
      if_neg (not_le.mpr h3)]

/-- Value of `max(abs(.))` on the one-element signal `[1]`. -/
lemma maxAbs_one : maxAbs ([1] : List ℝ) = 1 := by
  simp [maxAbs]

/-- Witness for C5: concrete parameters on which the checker succeeds,
obtained through the success branch of the characterization. -/
theorem iaf_recoverable_characterization_witness :
    iaf_recoverable Real.log Real.pi [1] Real.pi 3 1 1 (1 / 10) = Except.ok true := by
  refine (iaf_recoverable_characterization [1] Real.pi 3 1 1 (1 / 10)
    (by simp)).2.2.2 ?_ ?_ ?_
  · rw [maxAbs_one]; norm_num
  · rw [maxAbs_one]; norm_num
  · rw [maxAbs_one]
    have h2 : (1 : ℝ) - 1 / (1 - (3 - 1) * 1) = 2 := by norm_num
    rw [h2, mul_div_assoc, div_self Real.pi_ne_zero, mul_one]
    have hlog := Real.log_two_lt_d9
    norm_num
    linarith

/-- C6: recoverability is monotone in the encoder parameters.  For fixed
`(R, C, bw)` in the valid ranges (`R, C, bw > 0`, positive thresholds), if
the checker succeeds at bias `b` and threshold `d`, it also succeeds at any
larger bias `b' ≥ b` and smaller threshold `0 < d' ≤ d`.  Read
contrapositively, decreasing the bias or increasing the threshold never
turns a non-recoverable signal into a recoverable one. -/
theorem iaf_recoverable_monotone (u : List ℝ) (bw b d b' d' R C : ℝ)
    (hbw : 0 < bw) (hR : 0 < R) (hC : 0 < C) (hd' : 0 < d')
    (hbb : b ≤ b') (hdd : d' ≤ d)
    (hsucc : iaf_recoverable Real.log Real.pi u bw b d R C = Except.ok true) :
    iaf_recoverable Real.log Real.pi u bw b' d' R C = Except.ok true := by
  simp only [iaf_recoverable] at hsucc
  split_ifs at hsucc with h1 h2 h3
  -- contradictory branches are closed by `split_ifs`; in the surviving one,
  -- h1 : ¬ b ≤ maxAbs u, h2 : ¬ arg ≤ 0, h3 : ¬ bound ≤ r
  · have hcb : maxAbs u < b := not_le.mp h1
    have hx : 0 < b - maxAbs u := sub_pos.mpr hcb
    have hxR : 0 < (b - maxAbs u) * R := mul_pos hx hR
    have hx' : 0 < b' - maxAbs u := by linarith
    have hx'R : 0 < (b' - maxAbs u) * R := mul_pos hx' hR
    have hxRle : (b - maxAbs u) * R ≤ (b' - maxAbs u) * R :=
      mul_le_mul_of_nonneg_right (by linarith) hR.le
    have hd0 : 0 < d := lt_of_lt_of_le hd' hdd
    -- the success branch forces the quantity e = d/((b-c)R) below one
    have hkey : d < (b - maxAbs u) * R := by
      by_contra hge
      push_neg at hge
      rcases eq_or_lt_of_le hge with heq | hlt
      · apply h3
        rw [heq, div_self (by linarith : d ≠ 0)]
        norm_num [Real.log_one]
      · apply h2
        have hpos : 0 < d - (b - maxAbs u) * R := sub_pos.mpr hlt
        have h1le : 1 ≤ d / (d - (b - maxAbs u) * R) := by
          rw [le_div_iff hpos]
          nlinarith
        linarith
    have hE1 : d / ((b - maxAbs u) * R) < 1 := (div_lt_one hxR).mpr hkey
    have hee : d' / ((b' - maxAbs u) * R) ≤ d / ((b - maxAbs u) * R) := by
      calc d' / ((b' - maxAbs u) * R) ≤ d / ((b' - maxAbs u) * R) :=
            (div_le_div_right hx'R).mpr hdd
        _ ≤ d / ((b - maxAbs u) * R) :=
            div_le_div_of_nonneg_left hd0.le hxR hxRle
    have hE1' : d' / ((b' - maxAbs u) * R) < 1 := lt_of_le_of_lt hee hE1
    have hkey' : d' < (b' - maxAbs u) * R := (div_lt_one hx'R).mp hE1'
    have he : 0 < d / ((b - maxAbs u) * R) := div_pos hd0 hxR
    have he' : 0 < d' / ((b' - maxAbs u) * R) := div_pos hd' hx'R
    -- closed forms of the logarithm arguments
    have hne1 : d - (b - maxAbs u) * R ≠ 0 := ne_of_lt (by linarith)
    have hne1' : d' - (b' - maxAbs u) * R ≠ 0 := ne_of_lt (by linarith)
    have hargA : 1 - d / (d - (b - maxAbs u) * R) =
        1 / (1 - d / ((b - maxAbs u) * R)) := by
      rw [one_sub_div hne1, one_sub_div hxR.ne', one_div_div,
        show d - (b - maxAbs u) * R - d = -((b - maxAbs u) * R) from by ring,
        show d - (b - maxAbs u) * R = -((b - maxAbs u) * R - d) from by ring,
        neg_div_neg_eq]
    have hargA' : 1 - d' / (d' - (b' - maxAbs u) * R) =
        1 / (1 - d' / ((b' - maxAbs u) * R)) := by
      rw [one_sub_div hne1', one_sub_div hx'R.ne', one_div_div,
        show d' - (b' - maxAbs u) * R - d' = -((b' - maxAbs u) * R) from by ring,
        show d' - (b' - maxAbs u) * R = -((b' - maxAbs u) * R - d') from by ring,
        neg_div_neg_eq]
    have hargpos' : 0 < 1 - d' / (d' - (b' - maxAbs u) * R) := by
      rw [hargA']
      exact one_div_pos.mpr (by linarith)
    have hargle : 1 - d' / (d' - (b' - maxAbs u) * R) ≤
        1 - d / (d - (b - maxAbs u) * R) := by
      rw [hargA, hargA']
      exact one_div_le_one_div_of_le (by linarith) (by linarith)
    have hlog : Real.log (1 - d' / (d' - (b' - maxAbs u) * R)) ≤
        Real.log (1 - d / (d - (b - maxAbs u) * R)) :=
      Real.log_le_log hargpos' hargle
    have hr : R * C * Real.log (1 - d' / (d' - (b' - maxAbs u) * R)) * bw / Real.pi ≤
        R * C * Real.log (1 - d / (d - (b - maxAbs u) * R)) * bw / Real.pi := by
      have hco : (0 : ℝ) < R * C * bw / Real.pi := by positivity
      calc R * C * Real.log (1 - d' / (d' - (b' - maxAbs u) * R)) * bw / Real.pi
          = Real.log (1 - d' / (d' - (b' - maxAbs u) * R)) * (R * C * bw / Real.pi) := by
            ring
        _ ≤ Real.log (1 - d / (d - (b - maxAbs u) * R)) * (R * C * bw / Real.pi) :=
            mul_le_mul_of_nonneg_right hlog hco.le
        _ = R * C * Real.log (1 - d / (d - (b - maxAbs u) * R)) * bw / Real.pi := by
            ring
    have hbound : (1 - d / ((b - maxAbs u) * R)) / (1 + d / ((b - maxAbs u) * R)) ≤
        (1 - d' / ((b' - maxAbs u) * R)) / (1 + d' / ((b' - maxAbs u) * R)) := by
      rw [div_le_div_iff (by linarith) (by linarith)]
      nlinarith
    have hfinal : R * C * Real.log (1 - d' / (d' - (b' - maxAbs u) * R)) * bw / Real.pi <
        (1 - d' / ((b' - maxAbs u) * R)) / (1 + d' / ((b' - maxAbs u) * R)) :=
      lt_of_le_of_lt hr (lt_of_lt_of_le (not_le.mp h3) hbound)
    simp only [iaf_recoverable]
    rw [if_neg (not_le.mpr (lt_of_lt_of_le hcb hbb)),
      if_neg (not_le.mpr hargpos'), if_neg (not_le.mpr hfinal)]

/-- Witness for C6: the checker succeeds at `(b, d) = (3, 1)` and therefore
also at the larger bias and smaller threshold `(b', d') = (4, 1/2)`. -/
theorem iaf_recoverable_monotone_witness :
    iaf_recoverable Real.log Real.pi [1] Real.pi 4 (1 / 2) 1 (1 / 10) =
      Except.ok true := by
  refine iaf_recoverable_monotone [1] Real.pi 3 1 4 (1 / 2) 1 (1 / 10)
    Real.pi_pos (by norm_num) (by norm_num) (by norm_num) (by norm_num)
    (by norm_num) ?_
  simp only [iaf_recoverable, maxAbs_one]
  rw [if_neg (by norm_num : ¬ (3 : ℝ) ≤ 1)]
  rw [show (1 : ℝ) - 1 / (1 - (3 - 1) * 1) = 2 from by norm_num]
  rw [if_neg (by norm_num : ¬ (2 : ℝ) ≤ 0)]
  rw [if_neg ?hcond]
  case hcond =>
    rw [mul_div_assoc, div_self Real.pi_ne_zero, mul_one]
    have hlog := Real.log_two_lt_d9
    norm_num
    linarith

/-- The cumulative-sum helper preserves length. -/
lemma cumsumFrom_length {K : Type} [Add K] (a : K) (l : List K) :
    (cumsumFrom a l).length = l.length := by
  induction l generalizing a with
  | nil => rfl
  | cons x xs ih => simp [cumsumFrom, ih]

/-- `cumsum` preserves length. -/
lemma cumsum_length {K : Type} [Add K] [Zero K] (l : List K) :
    (cumsum l).length = l.length := cumsumFrom_length 0 l

/-- C9: each of the three Vandermonde decoding variants drops the final
spike.  The node vector is built from all spike times `cumsum s` except the
last via `z_i = exp(j·2·bw·t_i/n)` with `ns = len s - 1` and `n = ns - 1`;
it is the same vector in all three variants, holds exactly `ns` nodes, and
the Vandermonde matrix handed to the BPA solver is the square `ns × ns`
matrix of ascending powers of those nodes. -/
theorem vander_variants_drop_last_spike (bw : ℝ) (s : List ℝ) :
    asdm_decode_vander_z bw s =
        ((cumsum s).dropLast).map (fun ti =>
          Complex.exp (Complex.I * 2 * (bw : ℂ) * ((ti : ℝ) : ℂ) /
            (((((s.length : ℤ) - 1) - 1 : ℤ) : ℤ) : ℂ))) ∧
      asdm_decode_vander_ins_z bw s = asdm_decode_vander_z bw s ∧
      iaf_decode_vander_z bw s = asdm_decode_vander_z bw s ∧
      (asdm_decode_vander_z bw s).length = s.length - 1 ∧
      (asdm_decode_vander_V bw s).rows = s.length - 1 ∧
      (asdm_decode_vander_V bw s).cols = s.length - 1 ∧
      (asdm_decode_vander_ins_V bw s).rows = s.length - 1 ∧
      (asdm_decode_vander_ins_V bw s).cols = s.length - 1 ∧
      (iaf_decode_vander_V bw s).rows = s.length - 1 ∧
      (iaf_decode_vander_V bw s).cols = s.length - 1 ∧
      (∀ i j : ℕ, (iaf_decode_vander_V bw s).entry i j =
        (iaf_decode_vander_z bw s).getD i 0 ^ j) := by
  have hlen : (asdm_decode_vander_z bw s).length = s.length - 1 := by
    simp [asdm_decode_vander_z, cumsum_length]
  exact ⟨rfl, rfl, rfl, hlen, hlen, hlen, hlen, hlen, hlen, hlen,
    fun i j => rfl⟩

/-- C3 (amended): the dense and fast decoders reject a spike train with
fewer than 2 intervals with `InsufficientSpikes`; the Vandermonde decoder
and the population decoder perform no spike-count validation and return a
result built from the degenerate system. -/
theorem decoders_spike_count_validation (Si : ℝ → ℝ) (eiC : ℂ → ℂ)
    (pinvR : ℝ → Mtx ℝ → Mtx ℝ) (pinvC : ℝ → Mtx ℂ → Mtx ℂ)
    (bpa : Mtx ℂ → Mtx ℂ → Mtx ℂ) (fnan : ℝ)
    (s : List ℝ) (dur dt bw b d C : ℝ) (M : ℕ) (R : Resistance ℝ)
    (hs : s.length < 2) :
    iaf_decode Si eiC pinvR s dur dt bw b d R C =
        Except.error TedError.insufficientSpikes ∧
      iaf_decode_fast pinvC s dur dt bw M b d R C =
        Except.error TedError.insufficientSpikes ∧
      isOkE (iaf_decode_vander bpa s dur dt bw b d R C) = true ∧
      isOkE (iaf_decode_pop Si eiC pinvR fnan [s] dur dt bw [b] [d] [R] [C]) =
        true := by
  refine ⟨?_, ?_, ?_, ?_⟩
  · simp [iaf_decode, hs]
  · simp [iaf_decode_fast, hs]
  · rfl
  · simp [iaf_decode_pop]

/-- Witness for C3 (amended) at the concrete one-interval train `[1]`. -/
theorem decoders_spike_count_validation_witness :
    iaf_decode (fun _ => 0) (fun _ => 0) (fun _ A => A) [1] 1 1 1 1 1
        Resistance.inf 1 = Except.error TedError.insufficientSpikes ∧
      iaf_decode_fast (fun _ A => A) [1] 1 1 1 5 1 1 Resistance.inf 1 =
        Except.error TedError.insufficientSpikes ∧
      isOkE (iaf_decode_vander (fun _ v => v) [1] 1 1 1 1 1 Resistance.inf 1) =
        true ∧
      isOkE (iaf_decode_pop (fun _ => 0) (fun _ => 0) (fun _ A => A) 1 [[1]]
        1 1 1 [1] [1] [Resistance.inf] [1]) = true :=
  decoders_spike_count_validation (fun _ => 0) (fun _ => 0) (fun _ A => A)
    (fun _ A => A) (fun _ v => v) 1 [1] 1 1 1 1 1 1 5 Resistance.inf
    (by norm_num)

/-- C3 counterexample: on the one-interval train `[1]` neither the
Vandermonde decoder nor the population decoder fails with
`InsufficientSpikes` — both return a reconstruction, contradicting the
claim that every decoder raises on such a train. -/
theorem decoders_insufficient_spikes_counterexample :
    iaf_decode_vander (fun _ v => v) [1] 1 1 1 1 1 Resistance.inf 1 ≠
        Except.error TedError.insufficientSpikes ∧
      iaf_decode_pop (fun _ => 0) (fun _ => 0) (fun _ A => A) 1 [[1]] 1 1 1
        [1] [1] [Resistance.inf] [1] ≠
        Except.error TedError.insufficientSpikes := by
  constructor
  · intro h
    have hok : isOkE (iaf_decode_vander (fun _ v => v) [1] 1 1 1 1 1
        Resistance.inf 1) = true := rfl
    rw [h] at hok
    exact Bool.noConfusion hok
  · intro h
    have hok : isOkE (iaf_decode_pop (fun _ => 0) (fun _ => 0) (fun _ A => A) 1
        [[1]] 1 1 1 [1] [1] [Resistance.inf] [1]) = true := by
      simp [iaf_decode_pop]
    rw [h] at hok
    exact Bool.noConfusion hok

/-- Pointwise-equal functions give equal `flatMap`s over a list. -/
lemma flatMap_congr_mem {α β : Type} (l : List α) (f g : α → List β)
    (h : ∀ x ∈ l, f x = g x) : l.flatMap f = l.flatMap g := by
  induction l with
  | nil => rfl
  | cons x xs ih =>
    rw [List.flatMap_cons, List.flatMap_cons, h x (List.mem_cons_self x xs),
      ih (fun z hz => h z (List.mem_cons_of_mem x hz))]

/-- In a list of resistances that are all infinite, every (defaulted) lookup
is infinite. -/
lemma getD_inf_of_all_inf : ∀ (L : List (Resistance ℝ)) (l : ℕ),
    L.all Resistance.isInf = true → L.getD l Resistance.inf = Resistance.inf := by
  intro L
  induction L with
  | nil => intro l _; simp
  | cons r rs ih =>
    intro l hL
    rw [List.all_cons, Bool.and_eq_true] at hL
    cases l with
    | zero =>
      cases r with
      | inf => rfl
      | fin x => simp [Resistance.isInf] at hL
    | succ l => simpa using ih l hL.2

/-- In a list of resistances that are all finite, every in-range lookup is
finite. -/
lemma getD_fin_of_all_fin : ∀ (L : List (Resistance ℝ)) (l : ℕ), l < L.length →
    L.all (fun r => !r.isInf) = true →
    ∃ rv, L.getD l Resistance.inf = Resistance.fin rv := by
  intro L
  induction L with
  | nil => intro l hl _; exact absurd hl (by simp)
  | cons r rs ih =>
    intro l hl hall
    rw [List.all_cons, Bool.and_eq_true] at hall
    cases l with
    | zero =>
      cases r with
      | inf => simp [Resistance.isInf] at hall
      | fin rv => exact ⟨rv, rfl⟩
    | succ l =>
      obtain ⟨rv, hrv⟩ := ih l (by simpa using hl) hall.2
      exact ⟨rv, by simpa using hrv⟩

/-- C4 (amended): when all encoders of the population share the same leak
status — all non-leaky or all leaky — the stacked quanta vector and the
reconstruction-matrix block entries built by `iaf_decode_pop` agree with
the per-encoder-pair selection described by the specification.  (The
selection is made once, on `all(isinf(R_list))`, so this fails for mixed
leak statuses; see the counterexample.) -/
theorem pop_uniform_leak_matches_spec (Si : ℝ → ℝ) (eiC : ℂ → ℂ) (fnan : ℝ)
    (bw : ℝ) (s_list : List (List ℝ)) (b_list d_list : List ℝ)
    (R_list : List (Resistance ℝ)) (C_list : List ℝ)
    (hlen : R_list.length = s_list.length)
    (h : R_list.all Resistance.isInf = true ∨
      R_list.all (fun r => !r.isInf) = true) :
    iaf_decode_pop_q fnan s_list b_list d_list R_list C_list =
        pop_q_spec s_list b_list d_list R_list C_list ∧
      ∀ l m n k : ℕ, l < R_list.length →
        iaf_decode_pop_G_entry Si eiC fnan bw s_list R_list C_list l m n k =
          pop_G_entry_spec Si eiC bw s_list R_list C_list l m n k := by
  rcases h with hinf | hfin
  · constructor
    · simp only [iaf_decode_pop_q, pop_q_spec]
      apply flatMap_congr_mem
      intro l _
      rw [if_pos hinf, getD_inf_of_all_inf R_list l hinf]
    · intro l m n k _
      simp only [iaf_decode_pop_G_entry, pop_G_entry_spec]
      rw [if_pos hinf, getD_inf_of_all_inf R_list l hinf]
  · by_cases hR0 : R_list.all Resistance.isInf = true
    · constructor
      · simp only [iaf_decode_pop_q, pop_q_spec]
        apply flatMap_congr_mem
        intro l _
        rw [if_pos hR0, getD_inf_of_all_inf R_list l hR0]
      · intro l m n k _
        simp only [iaf_decode_pop_G_entry, pop_G_entry_spec]
        rw [if_pos hR0, getD_inf_of_all_inf R_list l hR0]
    · have hfalse : R_list.all Resistance.isInf = false :=
        Bool.eq_false_iff.mpr hR0
      constructor
      · simp only [iaf_decode_pop_q, pop_q_spec]
        apply flatMap_congr_mem
        intro l hl
        have hlR : l < R_list.length := by
          rw [hlen]
          exact List.mem_range.mp hl
        obtain ⟨rv, hrv⟩ := getD_fin_of_all_fin R_list l hlR hfin
        rw [if_neg (by rw [hfalse]; exact Bool.false_ne_true), hrv]
      · intro l m n k hlR
        obtain ⟨rv, hrv⟩ := getD_fin_of_all_fin R_list l hlR hfin
        simp only [iaf_decode_pop_G_entry, pop_G_entry_spec]
        rw [if_neg (by rw [hfalse]; exact Bool.false_ne_true), hrv]

/-- Witness for C4 (amended): a uniformly non-leaky two-encoder population,
with one concrete block entry instantiated. -/
theorem pop_uniform_leak_matches_spec_witness :
    iaf_decode_pop_q 1 [[1, 1], [2, 1]] [1, 2] [1, 1]
        [Resistance.inf, Resistance.inf] [1, 1] =
        pop_q_spec [[1, 1], [2, 1]] [1, 2] [1, 1]
          [Resistance.inf, Resistance.inf] [1, 1] ∧
      iaf_decode_pop_G_entry (fun _ => 0) (fun _ => 0) 1 1 [[1, 1], [2, 1]]
          [Resistance.inf, Resistance.inf] [1, 1] 0 1 0 0 =
        pop_G_entry_spec (fun _ => 0) (fun _ => 0) 1 [[1, 1], [2, 1]]
          [Resistance.inf, Resistance.inf] [1, 1] 0 1 0 0 := by
  have h := pop_uniform_leak_matches_spec (fun _ => 0) (fun _ => 0) 1 1
    [[1, 1], [2, 1]] [1, 2] [1, 1] [Resistance.inf, Resistance.inf] [1, 1]
    rfl (Or.inl rfl)
  exact ⟨h.1, h.2 0 1 0 0 (by norm_num)⟩

/-- C4 counterexample: with the mixed population `R_list = [∞, 1]` the
population decoder applies the leaky formulas to every encoder, so both the
stacked quanta vector and the `(0,0)` block entry differ from the
per-encoder selection of the claim — the non-leaky encoder receives the
leaky formula, whose float value at `R = ∞` is the junk value (NaN),
instantiated here as `fnan = 1`. -/
theorem pop_mixed_leak_counterexample :
    iaf_decode_pop_q 1 [[1, 1], [1, 1]] [1, 1] [1, 1]
        [Resistance.inf, Resistance.fin 1] [1, 1] ≠
      pop_q_spec [[1, 1], [1, 1]] [1, 1] [1, 1]
        [Resistance.inf, Resistance.fin 1] [1, 1] ∧
    iaf_decode_pop_G_entry (fun _ => 0) (fun _ => 0) 1 1 [[1, 1], [1, 1]]
        [Resistance.inf, Resistance.fin 1] [1, 1] 0 0 0 0 ≠
      pop_G_entry_spec (fun _ => 0) (fun _ => 0) 1 [[1, 1], [1, 1]]
        [Resistance.inf, Resistance.fin 1] [1, 1] 0 0 0 0 := by
  constructor
  · intro h
    simp [iaf_decode_pop_q, pop_q_spec, Resistance.isInf, List.range_succ] at h
  · intro h
    simp [iaf_decode_pop_G_entry, pop_G_entry_spec, G_entry_ideal,
      Resistance.isInf] at h
